import Mathlib

/-!
Verification of the quantum-register simulator core
(`src/qforte/quantum_computer.cc`).

The amplitude type is kept abstract as a commutative ring `R` (the C++
code uses `std::complex<double>`); amplitude vectors are Lean `List`s
mirroring `std::vector`, with reads modelled by `List.getD _ _ 0`
(in-range reads agree with `operator[]`) and writes by `List.set`.
-/

set_option maxRecDepth 4000

namespace Qforte

/-- One computational-basis state of the register: a bit-packed index.
The field `state_` and the member functions `get_bit`, `set_bit`, `add`
are declared in `quantum_computer.h` (not part of this excerpt); they are
modelled from the spec as described on each definition. -/
structure Basis where
  state_ : Nat
deriving DecidableEq, Repr

/-- Modelled from the spec: `get_bit(i)` returns bit `i` of `state_`
(0 or 1); a `const` member, modelled as a pure function. -/
def Basis.get_bit (b : Basis) (i : Nat) : Bool :=
  b.state_.testBit i

/-- Modelled from the spec: `set_bit(i, value)` sets bit `i` of `state_`
to `value`, leaving all other bits unchanged.  The C++ member mutates the
receiver; the shallow embedding returns the updated value, and every call
site rebinds the receiver to it. -/
def Basis.set_bit (b : Basis) (i : Nat) (v : Nat) : Basis :=
  ⟨b.state_ ^^^ ((b.state_ ^^^ (v <<< i)) &&& ((1 <<< i)))⟩

/-- Modelled from the spec: `add()` returns the integer index equal to
`state_`, used to index into the coefficient vectors. -/
def Basis.add (b : Basis) : Nat :=
  b.state_

/-- `Basis::insert(pos)` (quantum_computer.cc, lines 22-28): shift the
whole value left by one, then restore, via an XOR mask keyed on
`(1<<pos)-1`, all bits strictly below `pos` to their pre-shift values.
This is the value computed into `state_`; the member mutates the receiver
and returns `*this` (see `Basis.insertCall`). -/
def Basis.insert (b : Basis) (pos : Nat) : Basis :=
  let temp := b.state_
  let shifted := b.state_ <<< 1
  let mask := ((1 : Nat) <<< pos) - 1
  ⟨shifted ^^^ ((shifted ^^^ temp) &&& mask)⟩

/-- The full call semantics of `Basis& Basis::insert(size_t pos)`: the
body assigns the shifted-and-masked value to the receiver's `state_` and
then returns `*this`.  The pair is (receiver after the call, returned
value). -/
def Basis.insertCall (b : Basis) (pos : Nat) : Basis × Basis :=
  let temp := b.state_
  let state1 := b.state_ <<< 1
  let mask := ((1 : Nat) <<< pos) - 1
  let state2 := state1 ^^^ ((state1 ^^^ temp) &&& mask)
  (Basis.mk state2, Basis.mk state2)

/-- Bit-level characterization of `set_bit`: bit `i` becomes the low bit
of `v`, every other bit is unchanged. -/
theorem Basis.testBit_set_bit (b : Basis) (i v k : Nat) :
    (b.set_bit i v).state_.testBit k =
      if k = i then v.testBit 0 else b.state_.testBit k := by
  have h1 : ((1 : Nat) <<< i) = 2 ^ i := Nat.one_shiftLeft i
  simp only [Basis.set_bit, h1, Nat.testBit_xor, Nat.testBit_and,
    Nat.testBit_two_pow, Nat.testBit_shiftLeft]
  by_cases h : k = i
  · subst h
    rw [decide_eq_true (rfl : k = k), decide_eq_true (Nat.le_refl k), Nat.sub_self]
    cases hs : b.state_.testBit k <;> cases hv : v.testBit 0 <;> simp [hs, hv]
  · have h2 : decide (i = k) = false := decide_eq_false (fun hh => h hh.symm)
    rw [h2]
    simp [h]

/-- Bit-level characterization of `insert`: bits strictly below `pos`
come from the original value, bits at or above `pos` come from the
left-shifted value (so bit `pos` is the original bit `pos - 1`, not 0,
and bits above `pos` are the original bits at or above `pos` shifted
up by one). -/
theorem Basis.testBit_insert (b : Basis) (pos k : Nat) :
    (b.insert pos).state_.testBit k =
      if k < pos then b.state_.testBit k
      else (b.state_ <<< 1).testBit k := by
  have h1 : ((1 : Nat) <<< pos) = 2 ^ pos := Nat.one_shiftLeft pos
  simp only [Basis.insert, h1, Nat.testBit_xor, Nat.testBit_and,
    Nat.testBit_two_pow_sub_one]
  by_cases h : k < pos
  · rw [decide_eq_true h]
    cases hb : (b.state_ <<< 1).testBit k <;>
      cases hs : b.state_.testBit k <;> simp [hb, hs, h]
  · rw [decide_eq_false h]
    simp [h]

/-- `set_bit` keeps the value below `2 ^ n` when the position is below
`n`. -/
theorem Basis.set_bit_lt_two_pow {b : Basis} {n : Nat} (hb : b.state_ < 2 ^ n)
    {i : Nat} (hi : i < n) (v : Nat) :
    (b.set_bit i v).state_ < 2 ^ n := by
  apply Nat.lt_pow_two_of_testBit
  intro k hk
  rw [Basis.testBit_set_bit]
  have hki : k ≠ i := by omega
  simp only [hki, if_false]
  exact Nat.testBit_lt_two_pow (lt_of_lt_of_le hb (Nat.pow_le_pow_right (by omega) hk))

/-- Modelled from the spec: the data `QuantumComputer` consumes from the
external `QuantumGate` collaborator — declared arity (`nqubits()`),
target and control qubit indices, and the complex gate matrix
(`gate()[i][j]`), kept abstract as a function of the two indices. -/
structure QuantumGate (R : Type) where
  nqubits : Nat
  target : Nat
  control : Nat
  gate : Nat → Nat → R

/-- The simulator state (`quantum_computer.h` fields used by the .cc):
qubit count, basis count, the precomputed list of all `Basis` values,
the amplitude vector and the scratch vector. -/
structure QuantumComputer (R : Type) where
  nqubit_ : Nat
  nbasis_ : Nat
  basis_ : List Basis
  coeff_ : List R
  new_coeff_ : List R

/-- The list `basis_[i] = Basis(i)` for `i` in `[0, nbasis)`, as built by
the constructor's loop. -/
def basisList (nbasis : Nat) : List Basis :=
  (List.range nbasis).map Basis.mk

/-- `QuantumComputer::QuantumComputer(int nqubit)` (lines 38-47):
`nbasis_ = 2^nqubit`; `basis_`, `coeff_`, `new_coeff_` allocated at size
`nbasis_`; `basis_[i] = Basis(i)`; `coeff_` all zero except
`coeff_[0] = 1`. -/
def mkQuantumComputer (R : Type) [CommRing R] (nqubit : Nat) : QuantumComputer R :=
  let nbasis := 2 ^ nqubit
  { nqubit_ := nqubit
    nbasis_ := nbasis
    basis_ := basisList nbasis
    coeff_ := (List.replicate nbasis (0 : R)).set 0 1
    new_coeff_ := List.replicate nbasis (0 : R) }

/-- `QuantumComputer::set_state(state)` (lines 51-56): fill `coeff_`
with zeros, then write each (Basis, amplitude) pair at index
`basis.add()`, in input order. -/
def QuantumComputer.set_state {R : Type} [CommRing R]
    (qc : QuantumComputer R) (state : List (Basis × R)) : QuantumComputer R :=
  { qc with
    coeff_ := state.foldl (fun c basis_c => c.set basis_c.1.add basis_c.2)
      (qc.coeff_.map fun _ => (0 : R)) }

/-- One `(i, j)` pass of `apply_1qubit_gate` (lines 79-89): scan the
basis list; for each `basis_J` whose target bit equals `j`, force the
target bit to `i` to obtain `basis_I` and accumulate
`op_i_j * coeff_[basis_J.add()]` into `new_coeff_[basis_I.add()]`. -/
def gatePass {R : Type} [CommRing R] (op_i_j : R) (target i j : Nat)
    (coeff : List R) : List Basis → List R → List R
  | [], newc => newc
  | basis_J :: rest, newc =>
    if (basis_J.get_bit target).toNat = j then
      let basis_I := basis_J.set_bit target i
      gatePass op_i_j target i j coeff rest
        (newc.set basis_I.add (newc.getD basis_I.add 0 + op_i_j * coeff.getD basis_J.add 0))
    else
      gatePass op_i_j target i j coeff rest newc

/-- `QuantumComputer::apply_1qubit_gate(qg)` (lines 75-91): the two
nested loops over `i, j` in `{0, 1}` unrolled in source order (`i`
outer, `j` inner), each iteration being one `gatePass` over `basis_`. -/
def QuantumComputer.apply_1qubit_gate {R : Type} [CommRing R]
    (qc : QuantumComputer R) (qg : QuantumGate R) : QuantumComputer R :=
  let target := qg.target
  let nc0 := gatePass (qg.gate 0 0) target 0 0 qc.coeff_ qc.basis_ qc.new_coeff_
  let nc1 := gatePass (qg.gate 0 1) target 0 1 qc.coeff_ qc.basis_ nc0
  let nc2 := gatePass (qg.gate 1 0) target 1 0 qc.coeff_ qc.basis_ nc1
  let nc3 := gatePass (qg.gate 1 1) target 1 1 qc.coeff_ qc.basis_ nc2
  { qc with new_coeff_ := nc3 }

/-- One `(i, j)` pass of `apply_1qubit_gate_insertion` (lines 102-108):
for each spectator configuration `K`, build `Basis(K)`, insert a slot at
`target` (the C++ call mutates the temporary `basis_K`, which is never
read again), set the slot to `i` for the output index and to `j` for the
input index, and accumulate. -/
def insertionPass {R : Type} [CommRing R] (op_i_j : R) (target i j : Nat)
    (coeff : List R) : List Nat → List R → List R
  | [], newc => newc
  | K :: rest, newc =>
    let basis_K := Basis.mk K
    let inserted := basis_K.insert target
    let basis_I := inserted.set_bit target i
    let basis_J := inserted.set_bit target j
    insertionPass op_i_j target i j coeff rest
      (newc.set basis_I.add (newc.getD basis_I.add 0 + op_i_j * coeff.getD basis_J.add 0))

/-- `QuantumComputer::apply_1qubit_gate_insertion(qg)` (lines 93-111):
`nbasis_minus1 = pow(2, nqubit_ - 1)` (with C++ `int` arithmetic this is
`0` when `nqubit_ = 0`, since `pow(2, -1)` truncates to `0`); the two
nested `i, j` loops unrolled in source order, each iteration one
`insertionPass` over `K` in `[0, nbasis_minus1)`. -/
def QuantumComputer.apply_1qubit_gate_insertion {R : Type} [CommRing R]
    (qc : QuantumComputer R) (qg : QuantumGate R) : QuantumComputer R :=
  let target := qg.target
  let nbasis_minus1 := if qc.nqubit_ = 0 then 0 else 2 ^ (qc.nqubit_ - 1)
  let Ks := List.range nbasis_minus1
  let nc0 := insertionPass (qg.gate 0 0) target 0 0 qc.coeff_ Ks qc.new_coeff_
  let nc1 := insertionPass (qg.gate 0 1) target 0 1 qc.coeff_ Ks nc0
  let nc2 := insertionPass (qg.gate 1 0) target 1 0 qc.coeff_ Ks nc1
  let nc3 := insertionPass (qg.gate 1 1) target 1 1 qc.coeff_ Ks nc2
  { qc with new_coeff_ := nc3 }

/-- Modelled from the spec: `QuantumGate::two_qubits_basis()`, the
canonical ordering of the four (control-bit, target-bit) combinations —
binary counting with control as the higher-order bit. -/
def two_qubits_basis : List (Nat × Nat) :=
  [(0, 0), (0, 1), (1, 0), (1, 1)]

/-- Combination `k` of `two_qubits_basis`, as read by the loop. -/
def tqb (k : Nat) : Nat × Nat :=
  two_qubits_basis.getD k (0, 0)

/-- One `(i, j)` pass of `apply_2qubit_gate` (lines 127-134): scan the
basis list; for each `basis_J` whose (control, target) bits equal
`(j_c, j_t)`, overwrite them with `(i_c, i_t)` to obtain `basis_I` and
accumulate. -/
def gatePass2 {R : Type} [CommRing R] (op_i_j : R)
    (control target i_c i_t j_c j_t : Nat)
    (coeff : List R) : List Basis → List R → List R
  | [], newc => newc
  | basis_J :: rest, newc =>
    if (basis_J.get_bit control).toNat = j_c ∧ (basis_J.get_bit target).toNat = j_t then
      let basis_I := (basis_J.set_bit control i_c).set_bit target i_t
      gatePass2 op_i_j control target i_c i_t j_c j_t coeff rest
        (newc.set basis_I.add (newc.getD basis_I.add 0 + op_i_j * coeff.getD basis_J.add 0))
    else
      gatePass2 op_i_j control target i_c i_t j_c j_t coeff rest newc

/-- The row-major enumeration of the two nested loops `i, j` over
`0..3` in `apply_2qubit_gate` (`i` outer, `j` inner). -/
def ijPairs : List (Nat × Nat) :=
  [(0, 0), (0, 1), (0, 2), (0, 3),
   (1, 0), (1, 1), (1, 2), (1, 3),
   (2, 0), (2, 1), (2, 2), (2, 3),
   (3, 0), (3, 1), (3, 2), (3, 3)]

/-- `QuantumComputer::apply_2qubit_gate(qg)` (lines 113-137): the two
nested loops over `i, j` in `{0,..,3}` in source order (row-major), each
iteration one `gatePass2` with the combination bits read from
`two_qubits_basis`. -/
def QuantumComputer.apply_2qubit_gate {R : Type} [CommRing R]
    (qc : QuantumComputer R) (qg : QuantumGate R) : QuantumComputer R :=
  let nc := ijPairs.foldl
    (fun nc p =>
      gatePass2 (qg.gate p.1 p.2) qg.control qg.target
        (tqb p.1).1 (tqb p.1).2 (tqb p.2).1 (tqb p.2).2
        qc.coeff_ qc.basis_ nc)
    qc.new_coeff_
  { qc with new_coeff_ := nc }

/-- `QuantumComputer::apply_gate(qg)` (lines 64-73): dispatch on the
declared arity — only `nqubits == 1` is routed anywhere — then copy
`new_coeff_` into `coeff_` and re-zero `new_coeff_`. -/
def QuantumComputer.apply_gate {R : Type} [CommRing R]
    (qc : QuantumComputer R) (qg : QuantumGate R) : QuantumComputer R :=
  let nqubits := qg.nqubits
  let qc1 := if nqubits = 1 then qc.apply_1qubit_gate qg else qc
  { qc1 with
    coeff_ := qc1.new_coeff_
    new_coeff_ := qc1.new_coeff_.map fun _ => (0 : R) }

/-- `Basis::str(nqubit)` (lines 8-20): `"|"`, then one character per
qubit index `i` from `0` up to `nqubit - 1` in loop order (`'1'` if
`get_bit(i)`, else `'0'`), then `">"`. -/
def Basis.str (b : Basis) (nqubit : Nat) : String :=
  let s := "|"
  let s := (List.range nqubit).foldl
    (fun s i => s ++ (if b.get_bit i then "1" else "0")) s
  s ++ ">"

/-- `QuantumComputer::str()` (lines 139-148): scan the basis indices in
increasing order, keep the terms whose amplitude passes the magnitude
threshold test, and render each kept term.  The threshold test
`|coeff_[i]| >= print_threshold_` is modelled from the spec as an
abstract predicate `keep` (the magnitude of a `std::complex<double>` and
the mutable threshold live outside this excerpt), and the `fmt`-rendered
line is modelled as the pair (amplitude, basis ket string). -/
def QuantumComputer.str {R : Type} [CommRing R]
    (qc : QuantumComputer R) (keep : R → Bool) : List (R × String) :=
  (List.range qc.nbasis_).foldl
    (fun terms i =>
      if keep (qc.coeff_.getD i 0) then
        terms ++ [(qc.coeff_.getD i 0, (qc.basis_.getD i (Basis.mk 0)).str qc.nqubit_)]
      else terms) []

/-- Remove the bit slot at position `t` from index `I`: bits strictly
below `t` stay, bits strictly above `t` shift down by one.  This is the
inverse of the insert-then-set enumeration and is used to state which
spectator configuration `K` reaches a given output index. -/
def delNat (I t : Nat) : Nat :=
  ((I >>> (t + 1)) <<< t) ||| (I &&& ((1 <<< t) - 1))

/-- The amplitude written last for basis index `k` by a `set_state`
input list, if any: the specification-side characterization of
last-write-wins. -/
def lastWrite {R : Type} (state : List (Basis × R)) (k : Nat) : Option R :=
  state.foldl (fun acc p => if p.1.add = k then some p.2 else acc) none

/-! ### List helper lemmas -/

theorem getD_set_self {R : Type} (l : List R) (i : Nat) (a d : R)
    (h : i < l.length) : (l.set i a).getD i d = a := by
  simp [List.getD_eq_getElem?_getD, List.getElem?_set_self h]

theorem getD_set_ne {R : Type} (l : List R) (i j : Nat) (a d : R)
    (h : i ≠ j) : (l.set i a).getD j d = l.getD j d := by
  simp [List.getD_eq_getElem?_getD, List.getElem?_set_ne h]

theorem getD_replicate_self {R : Type} (n i : Nat) (d : R) :
    (List.replicate n d).getD i d = d := by
  induction n generalizing i with
  | zero => simp [List.getD]
  | succ n ih =>
    cases i with
    | zero => simp [List.replicate]
    | succ i => simp only [List.replicate, List.getD_cons_succ]; exact ih i

theorem eq_of_getD_eq {R : Type} (d : R) : ∀ (l1 l2 : List R),
    l1.length = l2.length → (∀ i, l1.getD i d = l2.getD i d) → l1 = l2
  | [], [], _, _ => rfl
  | [], _ :: _, hlen, _ => by simp at hlen
  | _ :: _, [], hlen, _ => by simp at hlen
  | a :: l1, b :: l2, hlen, h => by
    have h0 := h 0
    simp only [List.getD_cons_zero] at h0
    subst h0
    rw [eq_of_getD_eq d l1 l2 (by simpa using hlen)
      (fun i => by simpa using h (i + 1))]

/-- Summing, over `[0, n)`, a function that is zero except possibly at
`K`. -/
theorem sum_range_ite {R : Type} [CommRing R] (f : Nat → R) (K : Nat) :
    ∀ n : Nat,
      ((List.range n).map (fun r => if r = K then f r else 0)).sum =
        if K < n then f K else 0
  | 0 => by simp
  | n + 1 => by
    rw [List.range_succ, List.map_append, List.sum_append, sum_range_ite f K n]
    by_cases h : n = K
    · subst h
      simp [Nat.lt_irrefl, Nat.lt_succ_self]
    · have : ¬ K < n + 1 ∨ K < n := by omega
      rcases Nat.lt_or_ge K n with h2 | h2
      · simp [h, h2, Nat.lt_succ_of_lt h2]
      · have h3 : ¬ K < n := Nat.not_lt.mpr h2
        have h4 : ¬ K < n + 1 := by omega
        simp [h, h3, h4]

theorem sum_range_zero_fun {R : Type} [CommRing R] (n : Nat) :
    ((List.range n).map (fun _ => (0 : R))).sum = 0 := by
  induction n with
  | zero => simp
  | succ n ih => rw [List.range_succ, List.map_append, List.sum_append, ih]; simp

/-! ### Basis algebra -/

theorem Basis.get_bit_set_bit_self (b : Basis) (t j : Nat) (hj : j < 2) :
    ((b.set_bit t j).get_bit t).toNat = j := by
  rw [Basis.get_bit, Basis.testBit_set_bit, if_pos rfl]
  interval_cases j <;> simp

theorem Basis.eq_of_state_eq : ∀ {b c : Basis}, b.state_ = c.state_ → b = c
  | ⟨_⟩, ⟨_⟩, rfl => rfl

theorem Basis.set_bit_set_bit_same (b : Basis) (t i j : Nat) :
    (b.set_bit t i).set_bit t j = b.set_bit t j := by
  apply Basis.eq_of_state_eq
  apply Nat.eq_of_testBit_eq
  intro k
  simp only [Basis.testBit_set_bit]
  by_cases h : k = t <;> simp [h]

theorem Basis.set_bit_get_bit_self (b : Basis) (t j : Nat) (hj : j < 2)
    (h : (b.get_bit t).toNat = j) : b.set_bit t j = b := by
  have : (b.set_bit t j).state_ = b.state_ := by
    apply Nat.eq_of_testBit_eq
    intro k
    rw [Basis.testBit_set_bit]
    by_cases hk : k = t
    · subst hk
      rw [if_pos rfl]
      rw [Basis.get_bit] at h
      interval_cases j
      · cases hb : b.state_.testBit k <;> simp [hb] at h ⊢
      · cases hb : b.state_.testBit k <;> simp [hb] at h ⊢
    · rw [if_neg hk]
  cases b
  simpa [Basis.set_bit] using this

theorem Basis.insert_lt_two_pow {K N t : Nat} (hK : K < 2 ^ (N - 1))
    (hN : 1 ≤ N) (ht : t < N) {v : Nat} :
    (((Basis.mk K).insert t).set_bit t v).state_ < 2 ^ N := by
  apply Nat.lt_pow_two_of_testBit
  intro k hk
  rw [Basis.testBit_set_bit]
  have hkt : k ≠ t := by omega
  rw [if_neg hkt, Basis.testBit_insert]
  have hklt : ¬ k < t := by omega
  rw [if_neg hklt]
  rw [Nat.testBit_shiftLeft]
  rcases Nat.eq_zero_or_pos k with hk0 | hk0
  · omega
  · have h1 : (Basis.mk K).state_.testBit (k - 1) = false := by
      apply Nat.testBit_lt_two_pow
      calc (Basis.mk K).state_ < 2 ^ (N - 1) := hK
        _ ≤ 2 ^ (k - 1) := Nat.pow_le_pow_right (by omega) (by omega)
    simp [h1]

theorem testBit_delNat (I t k : Nat) :
    (delNat I t).testBit k =
      if k < t then I.testBit k else I.testBit (k + 1) := by
  have h1 : ((1 : Nat) <<< t) = 2 ^ t := Nat.one_shiftLeft t
  simp only [delNat, h1, Nat.testBit_or, Nat.testBit_and,
    Nat.testBit_shiftLeft, Nat.testBit_shiftRight, Nat.testBit_two_pow_sub_one]
  by_cases h : k < t
  · have h2 : ¬ k ≥ t := by omega
    rw [decide_eq_false h2, decide_eq_true h]
    simp [h]
  · have h2 : k ≥ t := by omega
    rw [decide_eq_true h2, decide_eq_false h]
    have h3 : t + 1 + (k - t) = k + 1 := by omega
    simp [h3, h]

theorem delNat_lt_two_pow {I N t : Nat} (hI : I < 2 ^ N) (ht : t < N) :
    delNat I t < 2 ^ (N - 1) := by
  apply Nat.lt_pow_two_of_testBit
  intro k hk
  rw [testBit_delNat]
  have hkt : ¬ k < t := by omega
  rw [if_neg hkt]
  apply Nat.testBit_lt_two_pow
  calc I < 2 ^ N := hI
    _ ≤ 2 ^ (k + 1) := Nat.pow_le_pow_right (by omega) (by omega)

/-- Bits of the output index of the insertion enumeration: spectator
bits of `K` spread around position `t`, with bit `t` forced to `v`. -/
theorem testBit_insert_set_bit (K t v k : Nat) :
    (((Basis.mk K).insert t).set_bit t v).state_.testBit k =
      if k = t then v.testBit 0
      else if k < t then K.testBit k
      else K.testBit (k - 1) := by
  rw [Basis.testBit_set_bit]
  by_cases hk : k = t
  · rw [if_pos hk, if_pos hk]
  · rw [if_neg hk, if_neg hk, Basis.testBit_insert]
    by_cases hlt : k < t
    · rw [if_pos hlt, if_pos hlt]
    · rw [if_neg hlt, if_neg hlt, Nat.testBit_shiftLeft]
      have hk1 : k ≥ 1 := by omega
      rw [decide_eq_true hk1]
      simp

/-- The insertion enumeration hits output index `I` exactly for the
spectator configuration `K = delNat I t`, provided bit `t` of `I`
matches the forced value `v`. -/
theorem insert_set_bit_eq_iff {I t v K : Nat} (hv : v < 2)
    (hbit : (I.testBit t).toNat = v) :
    (((Basis.mk K).insert t).set_bit t v).add = I ↔ K = delNat I t := by
  constructor
  · intro h
    have hK : ∀ k, K.testBit k = (delNat I t).testBit k := by
      intro k
      rw [testBit_delNat]
      have hIbits : ∀ m, I.testBit m =
          (((Basis.mk K).insert t).set_bit t v).state_.testBit m := by
        intro m
        rw [show (((Basis.mk K).insert t).set_bit t v).state_ = I from h]
      by_cases hlt : k < t
      · rw [if_pos hlt, hIbits k, testBit_insert_set_bit]
        have : k ≠ t := by omega
        rw [if_neg this, if_pos hlt]
      · rw [if_neg hlt, hIbits (k + 1), testBit_insert_set_bit]
        have h1 : ¬ k + 1 = t := by omega
        have h2 : ¬ k + 1 < t := by omega
        rw [if_neg h1, if_neg h2]
        simp
    exact Nat.eq_of_testBit_eq hK
  · intro h
    subst h
    show (((Basis.mk (delNat I t)).insert t).set_bit t v).state_ = I
    apply Nat.eq_of_testBit_eq
    intro k
    rw [testBit_insert_set_bit]
    by_cases hk : k = t
    · subst hk
      rw [if_pos rfl]
      interval_cases v
      · cases hb : I.testBit k <;> simp [hb] at hbit ⊢
      · cases hb : I.testBit k <;> simp [hb] at hbit ⊢
    · rw [if_neg hk]
      by_cases hlt : k < t
      · rw [if_pos hlt, testBit_delNat, if_pos hlt]
      · rw [if_neg hlt, testBit_delNat]
        have h4 : ¬ k - 1 < t := by omega
        rw [if_neg h4]
        have h5 : k - 1 + 1 = k := by omega
        rw [h5]

/-! ### The dense-scan pass -/

theorem gatePass_length {R : Type} [CommRing R] (op : R) (t i j : Nat)
    (coeff : List R) :
    ∀ (l : List Basis) (newc : List R),
      (gatePass op t i j coeff l newc).length = newc.length
  | [], _ => rfl
  | J :: rest, newc => by
    simp only [gatePass]
    by_cases h : (J.get_bit t).toNat = j
    · rw [if_pos h, gatePass_length op t i j coeff rest]
      simp
    · rw [if_neg h, gatePass_length op t i j coeff rest]

/-- Effect of one dense pass on one output slot, for an arbitrary basis
list: the slot accumulates one contribution per visited `basis_J` that
passes the target-bit filter and maps to this slot. -/
theorem gatePass_getD {R : Type} [CommRing R] (op : R) (t i j : Nat)
    (coeff : List R) (I : Nat) :
    ∀ (l : List Basis) (newc : List R),
      (∀ J ∈ l, (J.set_bit t i).add < newc.length) →
      (gatePass op t i j coeff l newc).getD I 0 =
        newc.getD I 0 +
          (l.map (fun J =>
            if (J.get_bit t).toNat = j ∧ (J.set_bit t i).add = I then
              op * coeff.getD J.add 0
            else 0)).sum
  | [], newc, _ => by simp [gatePass]
  | J :: rest, newc, hw => by
    rw [List.map_cons, List.sum_cons]
    simp only [gatePass]
    by_cases h1 : (J.get_bit t).toNat = j
    · rw [if_pos h1]
      have hw2 : ∀ J2 ∈ rest, (J2.set_bit t i).add <
          (newc.set (J.set_bit t i).add
            (newc.getD (J.set_bit t i).add 0 + op * coeff.getD J.add 0)).length := by
        intro J2 hJ2
        rw [List.length_set]
        exact hw J2 (List.mem_cons_of_mem _ hJ2)
      rw [gatePass_getD op t i j coeff I rest _ hw2]
      by_cases h2 : (J.set_bit t i).add = I
      · have hIlen : I < newc.length := h2 ▸ hw J (List.mem_cons_self J rest)
        rw [h2, getD_set_self _ _ _ _ hIlen, if_pos ⟨h1, rfl⟩, add_assoc]
      · rw [getD_set_ne _ _ _ _ _ h2, if_neg (fun hc => h2 hc.2), zero_add]
    · rw [if_neg h1,
        gatePass_getD op t i j coeff I rest newc
          (fun J2 hJ2 => hw J2 (List.mem_cons_of_mem _ hJ2)),
        if_neg (fun hc => h1 hc.1), zero_add]

theorem Basis.mk_state (b : Basis) : Basis.mk b.state_ = b := by
  cases b
  rfl

/-- Over the full basis list, the dense pass `(i, j)` writes to a slot
`I` exactly from the unique source `J = I` with target bit forced to
`j` — and only when `I`'s own target bit is `i`. -/
theorem dense_guard_iff {I t i j r : Nat} (hi : i < 2) (hj : j < 2)
    (hbit : (I.testBit t).toNat = i) :
    (((Basis.mk r).get_bit t).toNat = j ∧ ((Basis.mk r).set_bit t i).add = I) ↔
      r = ((Basis.mk I).set_bit t j).add := by
  constructor
  · rintro ⟨hg, hs⟩
    have h1 : (Basis.mk r).set_bit t i = Basis.mk I := Basis.eq_of_state_eq hs
    have h2 : (Basis.mk r).set_bit t j = Basis.mk r :=
      Basis.set_bit_get_bit_self _ t j hj hg
    have h3 : Basis.mk r = (Basis.mk I).set_bit t j := by
      rw [← h1, Basis.set_bit_set_bit_same, h2]
    exact congrArg Basis.state_ h3
  · intro h
    subst h
    have he : Basis.mk ((Basis.mk I).set_bit t j).add = (Basis.mk I).set_bit t j :=
      Basis.mk_state _
    rw [he]
    refine ⟨Basis.get_bit_set_bit_self _ t j hj, ?_⟩
    rw [Basis.set_bit_set_bit_same,
      Basis.set_bit_get_bit_self (Basis.mk I) t i hi hbit]
    rfl

/-- Closed form of one dense pass on an in-range slot `I`, over the full
basis list. -/
theorem gatePass_closed {R : Type} [CommRing R] (op : R) (N t i j : Nat)
    (ht : t < N) (hi : i < 2) (hj : j < 2) (coeff newc : List R)
    (hlen : newc.length = 2 ^ N) (I : Nat) (hI : I < 2 ^ N) :
    (gatePass op t i j coeff (basisList (2 ^ N)) newc).getD I 0 =
      newc.getD I 0 +
        (if (I.testBit t).toNat = i then
          op * coeff.getD ((Basis.mk I).set_bit t j).add 0
        else 0) := by
  have hw : ∀ J ∈ basisList (2 ^ N), (J.set_bit t i).add < newc.length := by
    intro J hJ
    rw [hlen]
    rcases List.mem_map.mp hJ with ⟨r, hr, hmk⟩
    subst hmk
    exact Basis.set_bit_lt_two_pow (List.mem_range.mp hr) ht i
  rw [gatePass_getD op t i j coeff I _ newc hw]
  congr 1
  rw [basisList, List.map_map]
  by_cases hbit : (I.testBit t).toNat = i
  · rw [if_pos hbit]
    have hfun : ∀ r,
        ((fun J => if (Basis.get_bit J t).toNat = j ∧ (J.set_bit t i).add = I then
            op * coeff.getD J.add 0 else 0) ∘ Basis.mk) r =
          (fun r => if r = ((Basis.mk I).set_bit t j).add then
            op * coeff.getD r 0 else 0) r := by
      intro r
      simp only [Function.comp]
      rw [if_congr (dense_guard_iff hi hj hbit) rfl rfl]
      by_cases hr : r = ((Basis.mk I).set_bit t j).add
      · rw [if_pos hr, if_pos hr]
        rfl
      · rw [if_neg hr, if_neg hr]
    rw [funext hfun, sum_range_ite (fun r => op * coeff.getD r 0)]
    have hK : ((Basis.mk I).set_bit t j).add < 2 ^ N :=
      Basis.set_bit_lt_two_pow hI ht j
    rw [if_pos hK]
  · rw [if_neg hbit]
    have hfun : ∀ r,
        ((fun J => if (Basis.get_bit J t).toNat = j ∧ (J.set_bit t i).add = I then
            op * coeff.getD J.add 0 else 0) ∘ Basis.mk) r =
          (fun _ => (0 : R)) r := by
      intro r
      simp only [Function.comp]
      rw [if_neg]
      rintro ⟨hg, hs⟩
      apply hbit
      have h1 : (Basis.mk r).set_bit t i = Basis.mk I := Basis.eq_of_state_eq hs
      have := Basis.get_bit_set_bit_self (Basis.mk r) t i hi
      rw [h1] at this
      exact this
    rw [funext hfun, sum_range_zero_fun]

theorem getD_eq_default_of_le {R : Type} (l : List R) (i : Nat) (d : R)
    (h : l.length ≤ i) : l.getD i d = d := by
  simp [List.getD_eq_getElem?_getD, List.getElem?_eq_none h]

/-! ### The insertion pass -/

theorem insertionPass_length {R : Type} [CommRing R] (op : R) (t i j : Nat)
    (coeff : List R) :
    ∀ (Ks : List Nat) (newc : List R),
      (insertionPass op t i j coeff Ks newc).length = newc.length
  | [], _ => rfl
  | K :: rest, newc => by
    simp only [insertionPass]
    rw [insertionPass_length op t i j coeff rest]
    simp

/-- Effect of one insertion pass on one output slot, for an arbitrary
spectator list: every visited `K` contributes (there is no filter), at
the output index obtained by inserting a slot at `target` and forcing it
to `i`, reading from the same index with the slot forced to `j`. -/
theorem insertionPass_getD {R : Type} [CommRing R] (op : R) (t i j : Nat)
    (coeff : List R) (I : Nat) :
    ∀ (Ks : List Nat) (newc : List R),
      (∀ K ∈ Ks, (((Basis.mk K).insert t).set_bit t i).add < newc.length) →
      (insertionPass op t i j coeff Ks newc).getD I 0 =
        newc.getD I 0 +
          (Ks.map (fun K =>
            if (((Basis.mk K).insert t).set_bit t i).add = I then
              op * coeff.getD (((Basis.mk K).insert t).set_bit t j).add 0
            else 0)).sum
  | [], newc, _ => by simp [insertionPass]
  | K :: rest, newc, hw => by
    rw [List.map_cons, List.sum_cons]
    simp only [insertionPass]
    have hw2 : ∀ K2 ∈ rest, (((Basis.mk K2).insert t).set_bit t i).add <
        (newc.set (((Basis.mk K).insert t).set_bit t i).add
          (newc.getD (((Basis.mk K).insert t).set_bit t i).add 0 +
            op * coeff.getD (((Basis.mk K).insert t).set_bit t j).add 0)).length := by
      intro K2 hK2
      rw [List.length_set]
      exact hw K2 (List.mem_cons_of_mem _ hK2)
    rw [insertionPass_getD op t i j coeff I rest _ hw2]
    by_cases h2 : (((Basis.mk K).insert t).set_bit t i).add = I
    · have hIlen : I < newc.length := h2 ▸ hw K (List.mem_cons_self K rest)
      rw [h2, getD_set_self _ _ _ _ hIlen, if_pos rfl, add_assoc]
    · rw [getD_set_ne _ _ _ _ _ h2, if_neg h2, zero_add]

/-- Closed form of one insertion pass on an in-range slot `I`: identical
to the dense pass's closed form. -/
theorem insertionPass_closed {R : Type} [CommRing R] (op : R) (N t i j : Nat)
    (hN : 1 ≤ N) (ht : t < N) (hi : i < 2) (coeff newc : List R)
    (hlen : newc.length = 2 ^ N) (I : Nat) (hI : I < 2 ^ N) :
    (insertionPass op t i j coeff (List.range (2 ^ (N - 1))) newc).getD I 0 =
      newc.getD I 0 +
        (if (I.testBit t).toNat = i then
          op * coeff.getD ((Basis.mk I).set_bit t j).add 0
        else 0) := by
  have hw : ∀ K ∈ List.range (2 ^ (N - 1)),
      (((Basis.mk K).insert t).set_bit t i).add < newc.length := by
    intro K hK
    rw [hlen]
    exact Basis.insert_lt_two_pow (List.mem_range.mp hK) hN ht
  rw [insertionPass_getD op t i j coeff I _ newc hw]
  congr 1
  by_cases hbit : (I.testBit t).toNat = i
  · rw [if_pos hbit]
    have hfun : ∀ K,
        (if (((Basis.mk K).insert t).set_bit t i).add = I then
          op * coeff.getD (((Basis.mk K).insert t).set_bit t j).add 0
        else 0) =
          (if K = delNat I t then
            op * coeff.getD (((Basis.mk K).insert t).set_bit t j).add 0
          else 0) := by
      intro K
      rw [if_congr (insert_set_bit_eq_iff hi hbit) rfl rfl]
    rw [funext hfun,
      sum_range_ite (fun K => op * coeff.getD (((Basis.mk K).insert t).set_bit t j).add 0)]
    have hK0 : delNat I t < 2 ^ (N - 1) := delNat_lt_two_pow hI ht
    rw [if_pos hK0]
    have hIdx : ((Basis.mk (delNat I t)).insert t).set_bit t j =
        (Basis.mk I).set_bit t j := by
      have h1 : ((Basis.mk (delNat I t)).insert t).set_bit t i = Basis.mk I :=
        Basis.eq_of_state_eq ((insert_set_bit_eq_iff hi hbit).mpr rfl)
      rw [← Basis.set_bit_set_bit_same ((Basis.mk (delNat I t)).insert t) t i j, h1]
    rw [hIdx]
  · rw [if_neg hbit]
    have hfun : ∀ K,
        (if (((Basis.mk K).insert t).set_bit t i).add = I then
          op * coeff.getD (((Basis.mk K).insert t).set_bit t j).add 0
        else 0) = (0 : R) := by
      intro K
      rw [if_neg]
      intro hs
      apply hbit
      have h1 : ((Basis.mk K).insert t).set_bit t i = Basis.mk I :=
        Basis.eq_of_state_eq hs
      have := Basis.get_bit_set_bit_self ((Basis.mk K).insert t) t i hi
      rw [h1] at this
      exact this
    rw [funext hfun, sum_range_zero_fun]

/-! ### Claim C1 -/

/-- C1: after `apply_1qubit_gate` with 2x2 matrix `op` and target qubit
`t < N`, starting from the all-zero scratch buffer, every basis index
`I < 2^N` of `new_coeff_` holds
`op[b][0] * coeff_[J0] + op[b][1] * coeff_[J1]`, where `b` is bit `t`
of `I` and `J0`, `J1` are `I` with bit `t` forced to 0 and 1: the
single-qubit operator tensored with the identity on all other qubits. -/
theorem c1_apply_1qubit_gate_entry {R : Type} [CommRing R] (N t : Nat)
    (ht : t < N) (op : Nat → Nat → R) (coeff : List R) (I : Nat)
    (hI : I < 2 ^ N) :
    ((QuantumComputer.mk N (2 ^ N) (basisList (2 ^ N)) coeff
        (List.replicate (2 ^ N) (0 : R))).apply_1qubit_gate
          (QuantumGate.mk 1 t 0 op)).new_coeff_.getD I 0 =
      op (I.testBit t).toNat 0 * coeff.getD ((Basis.mk I).set_bit t 0).add 0 +
        op (I.testBit t).toNat 1 * coeff.getD ((Basis.mk I).set_bit t 1).add 0 := by
  show (gatePass (op 1 1) t 1 1 coeff (basisList (2 ^ N))
      (gatePass (op 1 0) t 1 0 coeff (basisList (2 ^ N))
        (gatePass (op 0 1) t 0 1 coeff (basisList (2 ^ N))
          (gatePass (op 0 0) t 0 0 coeff (basisList (2 ^ N))
            (List.replicate (2 ^ N) (0 : R)))))).getD I 0 = _
  have h0 : (List.replicate (2 ^ N) (0 : R)).length = 2 ^ N := by simp
  have h1 : (gatePass (op 0 0) t 0 0 coeff (basisList (2 ^ N))
      (List.replicate (2 ^ N) (0 : R))).length = 2 ^ N := by
    rw [gatePass_length]; exact h0
  have h2 : (gatePass (op 0 1) t 0 1 coeff (basisList (2 ^ N))
      (gatePass (op 0 0) t 0 0 coeff (basisList (2 ^ N))
        (List.replicate (2 ^ N) (0 : R)))).length = 2 ^ N := by
    rw [gatePass_length]; exact h1
  have h3 : (gatePass (op 1 0) t 1 0 coeff (basisList (2 ^ N))
      (gatePass (op 0 1) t 0 1 coeff (basisList (2 ^ N))
        (gatePass (op 0 0) t 0 0 coeff (basisList (2 ^ N))
          (List.replicate (2 ^ N) (0 : R))))).length = 2 ^ N := by
    rw [gatePass_length]; exact h2
  rw [gatePass_closed (op 1 1) N t 1 1 ht (by omega) (by omega) coeff _ h3 I hI,
    gatePass_closed (op 1 0) N t 1 0 ht (by omega) (by omega) coeff _ h2 I hI,
    gatePass_closed (op 0 1) N t 0 1 ht (by omega) (by omega) coeff _ h1 I hI,
    gatePass_closed (op 0 0) N t 0 0 ht (by omega) (by omega) coeff _ h0 I hI,
    getD_replicate_self]
  cases hb : I.testBit t <;> simp [hb]

/-- Witness for C1: N = 1, t = 0, I = 1, matrix [[1,2],[11,12]],
coeff [5,7] over ℤ; the entry is 11*5 + 12*7 = 139. -/
theorem c1_witness :
    ((QuantumComputer.mk 1 (2 ^ 1) (basisList (2 ^ 1)) [5, 7]
        (List.replicate (2 ^ 1) (0 : ℤ))).apply_1qubit_gate
          (QuantumGate.mk 1 0 0
            (fun i j => 10 * (i : ℤ) + (j : ℤ) + 1))).new_coeff_.getD 1 0 = 139 := by
  rw [c1_apply_1qubit_gate_entry 1 0 (by decide)
    (fun i j => 10 * (i : ℤ) + (j : ℤ) + 1) [5, 7] 1 (by decide)]
  decide

/-! ### Claim C2 -/

/-- C2: for every register size `N >= 1`, target `t < N`, 2x2 matrix and
starting coefficient vector (and the same starting scratch buffer of
size `2^N`), `apply_1qubit_gate` and `apply_1qubit_gate_insertion`
produce identical `new_coeff_` vectors. -/
theorem c2_gate_variants_agree {R : Type} [CommRing R] (N t : Nat)
    (hN : 1 ≤ N) (ht : t < N) (op : Nat → Nat → R) (coeff newc : List R)
    (hlen : newc.length = 2 ^ N) :
    ((QuantumComputer.mk N (2 ^ N) (basisList (2 ^ N)) coeff
        newc).apply_1qubit_gate (QuantumGate.mk 1 t 0 op)).new_coeff_ =
      ((QuantumComputer.mk N (2 ^ N) (basisList (2 ^ N)) coeff
        newc).apply_1qubit_gate_insertion (QuantumGate.mk 1 t 0 op)).new_coeff_ := by
  have hcond : ((if N = 0 then 0 else 2 ^ (N - 1)) : Nat) = 2 ^ (N - 1) :=
    if_neg (by omega)
  show gatePass (op 1 1) t 1 1 coeff (basisList (2 ^ N))
      (gatePass (op 1 0) t 1 0 coeff (basisList (2 ^ N))
        (gatePass (op 0 1) t 0 1 coeff (basisList (2 ^ N))
          (gatePass (op 0 0) t 0 0 coeff (basisList (2 ^ N)) newc))) =
    insertionPass (op 1 1) t 1 1 coeff
      (List.range (if N = 0 then 0 else 2 ^ (N - 1)))
      (insertionPass (op 1 0) t 1 0 coeff
        (List.range (if N = 0 then 0 else 2 ^ (N - 1)))
        (insertionPass (op 0 1) t 0 1 coeff
          (List.range (if N = 0 then 0 else 2 ^ (N - 1)))
          (insertionPass (op 0 0) t 0 0 coeff
            (List.range (if N = 0 then 0 else 2 ^ (N - 1))) newc)))
  rw [hcond]
  have g1 : (gatePass (op 0 0) t 0 0 coeff (basisList (2 ^ N)) newc).length
      = 2 ^ N := by rw [gatePass_length]; exact hlen
  have g2 : (gatePass (op 0 1) t 0 1 coeff (basisList (2 ^ N))
      (gatePass (op 0 0) t 0 0 coeff (basisList (2 ^ N)) newc)).length
      = 2 ^ N := by rw [gatePass_length]; exact g1
  have g3 : (gatePass (op 1 0) t 1 0 coeff (basisList (2 ^ N))
      (gatePass (op 0 1) t 0 1 coeff (basisList (2 ^ N))
        (gatePass (op 0 0) t 0 0 coeff (basisList (2 ^ N)) newc))).length
      = 2 ^ N := by rw [gatePass_length]; exact g2
  have g4 : (gatePass (op 1 1) t 1 1 coeff (basisList (2 ^ N))
      (gatePass (op 1 0) t 1 0 coeff (basisList (2 ^ N))
        (gatePass (op 0 1) t 0 1 coeff (basisList (2 ^ N))
          (gatePass (op 0 0) t 0 0 coeff (basisList (2 ^ N)) newc)))).length
      = 2 ^ N := by rw [gatePass_length]; exact g3
  have i1 : (insertionPass (op 0 0) t 0 0 coeff (List.range (2 ^ (N - 1)))
      newc).length = 2 ^ N := by rw [insertionPass_length]; exact hlen
  have i2 : (insertionPass (op 0 1) t 0 1 coeff (List.range (2 ^ (N - 1)))
      (insertionPass (op 0 0) t 0 0 coeff (List.range (2 ^ (N - 1)))
        newc)).length = 2 ^ N := by rw [insertionPass_length]; exact i1
  have i3 : (insertionPass (op 1 0) t 1 0 coeff (List.range (2 ^ (N - 1)))
      (insertionPass (op 0 1) t 0 1 coeff (List.range (2 ^ (N - 1)))
        (insertionPass (op 0 0) t 0 0 coeff (List.range (2 ^ (N - 1)))
          newc))).length = 2 ^ N := by rw [insertionPass_length]; exact i2
  have i4 : (insertionPass (op 1 1) t 1 1 coeff (List.range (2 ^ (N - 1)))
      (insertionPass (op 1 0) t 1 0 coeff (List.range (2 ^ (N - 1)))
        (insertionPass (op 0 1) t 0 1 coeff (List.range (2 ^ (N - 1)))
          (insertionPass (op 0 0) t 0 0 coeff (List.range (2 ^ (N - 1)))
            newc)))).length = 2 ^ N := by rw [insertionPass_length]; exact i3
  apply eq_of_getD_eq (0 : R) _ _ (by rw [g4, i4])
  intro I
  by_cases hI : I < 2 ^ N
  · rw [gatePass_closed (op 1 1) N t 1 1 ht (by omega) (by omega) coeff _ g3 I hI,
      gatePass_closed (op 1 0) N t 1 0 ht (by omega) (by omega) coeff _ g2 I hI,
      gatePass_closed (op 0 1) N t 0 1 ht (by omega) (by omega) coeff _ g1 I hI,
      gatePass_closed (op 0 0) N t 0 0 ht (by omega) (by omega) coeff _ hlen I hI,
      insertionPass_closed (op 1 1) N t 1 1 hN ht (by omega) coeff _ i3 I hI,
      insertionPass_closed (op 1 0) N t 1 0 hN ht (by omega) coeff _ i2 I hI,
      insertionPass_closed (op 0 1) N t 0 1 hN ht (by omega) coeff _ i1 I hI,
      insertionPass_closed (op 0 0) N t 0 0 hN ht (by omega) coeff _ hlen I hI]
  · have hle : (2 : Nat) ^ N ≤ I := by omega
    rw [getD_eq_default_of_le _ _ _ (by rw [g4]; exact hle),
      getD_eq_default_of_le _ _ _ (by rw [i4]; exact hle)]

/-- Witness for C2: N = 2, t = 1, matrix [[1,2],[11,12]], a concrete
4-entry coefficient vector and zero scratch over ℤ. -/
theorem c2_witness :
    ((QuantumComputer.mk 2 (2 ^ 2) (basisList (2 ^ 2)) [3, 1, 4, 1]
        [0, 0, 0, 0]).apply_1qubit_gate
          (QuantumGate.mk 1 1 0
            (fun i j => 10 * (i : ℤ) + (j : ℤ) + 1))).new_coeff_ =
      ((QuantumComputer.mk 2 (2 ^ 2) (basisList (2 ^ 2)) [3, 1, 4, 1]
        [0, 0, 0, 0]).apply_1qubit_gate_insertion
          (QuantumGate.mk 1 1 0
            (fun i j => 10 * (i : ℤ) + (j : ℤ) + 1))).new_coeff_ :=
  c2_gate_variants_agree 2 1 (by decide) (by decide)
    (fun i j => 10 * (i : ℤ) + (j : ℤ) + 1) [3, 1, 4, 1] [0, 0, 0, 0] (by decide)

/-! ### Claim C3 -/

/-- C3 counterexample: for `v = Basis(1)` (in range for `N = 2`) and
`pos = 1`, the bit at `pos` of `insert(pos)` is 1, not 0: the claim that
the newly opened bit is cleared fails (`insert` computes `3`, whose bit
1 is set, because the XOR mask `(1<<pos)-1` only restores bits strictly
below `pos`, leaving bit `pos` equal to the shifted-in original bit
`pos - 1`). -/
theorem c3_counterexample :
    (Basis.mk 1).state_ < 2 ^ (2 - 1) ∧
      ¬ ((Basis.mk 1).insert 1).state_.testBit 1 = false := by
  decide

/-- C3 amended: for every `v` with `state_ < 2^(N-1)` and every `pos`,
`insert(pos)` produces the value whose bits strictly below `pos` equal
`v`'s bits and whose bits above `pos` equal `v`'s bits at or above `pos`
shifted up by one; the bit at `pos` is not cleared but equals `v`'s bit
at `pos - 1` (it is 0 only when `pos = 0`). -/
theorem c3_insert_bit_characterization (N : Nat) (v : Basis)
    (_hv : v.state_ < 2 ^ (N - 1)) (pos k : Nat) :
    (v.insert pos).state_.testBit k =
      if k < pos then v.state_.testBit k
      else if k = pos then
        (if pos = 0 then false else v.state_.testBit (pos - 1))
      else v.state_.testBit (k - 1) := by
  rw [Basis.testBit_insert]
  by_cases hlt : k < pos
  · rw [if_pos hlt, if_pos hlt]
  · rw [if_neg hlt, if_neg hlt, Nat.testBit_shiftLeft]
    by_cases hk : k = pos
    · rw [if_pos hk]
      subst hk
      by_cases h0 : k = 0
      · subst h0
        simp
      · rw [if_neg h0, decide_eq_true (by omega : k ≥ 1)]
        simp
    · rw [if_neg hk, decide_eq_true (by omega : k ≥ 1)]
      simp

/-- Witness for C3 amended, at `N = 2`, `v = Basis(1)`, `pos = 1`,
`k = 1`. -/
theorem c3_amended_witness :
    (Basis.mk 1).state_ < 2 ^ (2 - 1) ∧
      ((Basis.mk 1).insert 1).state_.testBit 1 =
        (if 1 < 1 then (Basis.mk 1).state_.testBit 1
        else if 1 = 1 then
          (if 1 = 0 then false else (Basis.mk 1).state_.testBit (1 - 1))
        else (Basis.mk 1).state_.testBit (1 - 1)) :=
  ⟨by decide, c3_insert_bit_characterization 2 (Basis.mk 1) (by decide) 1 1⟩

/-! ### Claim C4 -/

/-- C4 counterexample: `Basis::insert` is not pure — the call mutates the
receiver.  For `b = Basis(1)` and `pos = 0`, after `b.insert(0)` the
receiver's `state_` is 2, not its original 1. -/
theorem c4_counterexample :
    ¬ ((Basis.mk 1).insertCall 0).1.state_ = (Basis.mk 1).state_ := by
  decide

/-- C4 amended: `get_bit` and `add` are pure (`const` members, modelled
as functions of the receiver), while `insert` (like `set_bit`) mutates
the receiver in place rather than leaving it unchanged: after
`b.insert(pos)` the receiver and the returned `*this` always coincide
(both hold the shift-and-mask result), and there are receivers the call
really changes; call sites only ever invoke `insert` on a freshly
constructed temporary, so no shared `Basis` value is corrupted. -/
theorem c4_insert_mutates_receiver_to_result :
    (∀ (b : Basis) (pos : Nat),
      (b.insertCall pos).1 = (b.insertCall pos).2 ∧
        (b.insertCall pos).2 = b.insert pos) ∧
      (∃ (b : Basis) (pos : Nat), (b.insertCall pos).1 ≠ b) :=
  ⟨fun _ _ => ⟨rfl, rfl⟩, Basis.mk 1, 0, by decide⟩

/-! ### Claim C5 -/

/-- C5: the constructor establishes `nbasis_ = 2^N`; `coeff_`,
`new_coeff_` and `basis_` all of size `2^N`; `coeff_[0] = 1` and
`coeff_[i] = 0` for `i ≠ 0`; and `basis_[i] = Basis(i)` for every
`i < 2^N`. -/
theorem c5_constructor_spec (R : Type) [CommRing R] (N : Nat) :
    (mkQuantumComputer R N).nbasis_ = 2 ^ N ∧
      (mkQuantumComputer R N).coeff_.length = 2 ^ N ∧
      (mkQuantumComputer R N).new_coeff_.length = 2 ^ N ∧
      (mkQuantumComputer R N).basis_.length = 2 ^ N ∧
      (mkQuantumComputer R N).coeff_.getD 0 0 = 1 ∧
      (∀ i, i ≠ 0 → (mkQuantumComputer R N).coeff_.getD i 0 = 0) ∧
      (∀ i, i < 2 ^ N → (mkQuantumComputer R N).basis_.getD i (Basis.mk 0) = Basis.mk i) := by
  refine ⟨rfl, by simp [mkQuantumComputer], by simp [mkQuantumComputer],
    by simp [mkQuantumComputer, basisList], ?_, ?_, ?_⟩
  · exact getD_set_self _ _ _ _ (by simp [Nat.two_pow_pos N])
  · intro i hi
    rw [show (mkQuantumComputer R N).coeff_ =
        (List.replicate (2 ^ N) (0 : R)).set 0 1 from rfl,
      getD_set_ne _ _ _ _ _ (fun h => hi h.symm), getD_replicate_self]
  · intro i hi
    show (basisList (2 ^ N)).getD i (Basis.mk 0) = Basis.mk i
    simp [basisList, List.getD_eq_getElem?_getD, List.getElem?_range hi]

/-- Witness for C5's conditional parts at `N = 1`, `i = 1` over ℤ. -/
theorem c5_witness :
    (mkQuantumComputer ℤ 1).coeff_.getD 1 0 = 0 ∧
      (mkQuantumComputer ℤ 1).basis_.getD 1 (Basis.mk 0) = Basis.mk 1 :=
  ⟨(c5_constructor_spec ℤ 1).2.2.2.2.2.1 1 (by decide),
    (c5_constructor_spec ℤ 1).2.2.2.2.2.2 1 (by decide)⟩

/-! ### Claim C6 -/

theorem lastWrite_foldl_acc {R : Type} (k : Nat) :
    ∀ (state : List (Basis × R)) (a : Option R),
      state.foldl (fun acc p => if p.1.add = k then some p.2 else acc) a =
        (lastWrite state k).elim a some
  | [], a => by simp [lastWrite]
  | p :: rest, a => by
    have hcons : lastWrite (p :: rest) k =
        rest.foldl (fun acc q => if q.1.add = k then some q.2 else acc)
          (if p.1.add = k then some p.2 else none) := rfl
    rw [List.foldl_cons, lastWrite_foldl_acc k rest, hcons,
      lastWrite_foldl_acc k rest]
    cases hl : lastWrite rest k with
    | some x => rfl
    | none =>
      by_cases hp : p.1.add = k
      · simp [hp]
      · simp [hp]

/-- Folding the `set_state` writes over any starting vector: slot `k`
ends at the last written amplitude for `k`, or keeps its starting value
if `k` is never written. -/
theorem set_state_foldl_getD {R : Type} [CommRing R] (k : Nat) :
    ∀ (state : List (Basis × R)) (c : List R), k < c.length →
      (state.foldl (fun c2 p => c2.set p.1.add p.2) c).getD k 0 =
        (lastWrite state k).getD (c.getD k 0)
  | [], c, _ => by simp [lastWrite]
  | p :: rest, c, hk => by
    rw [List.foldl_cons,
      set_state_foldl_getD k rest (c.set p.1.add p.2) (by simpa using hk)]
    have hcons : lastWrite (p :: rest) k =
        rest.foldl (fun acc q => if q.1.add = k then some q.2 else acc)
          (if p.1.add = k then some p.2 else none) := rfl
    rw [hcons, lastWrite_foldl_acc k rest]
    cases hl : lastWrite rest k with
    | some x => rfl
    | none =>
      by_cases hp : p.1.add = k
      · subst hp
        rw [getD_set_self _ _ _ _ hk]
        simp [Option.elim]
      · rw [getD_set_ne _ _ _ _ _ hp]
        simp [Option.elim, hp]

/-- C6: after `set_state`, every in-range slot `k` holds the amplitude
of the last input pair whose basis index is `k` (last-write-wins), and 0
if no input pair mentions `k`, regardless of the prior contents of
`coeff_`. -/
theorem c6_set_state_last_write_wins {R : Type} [CommRing R]
    (qc : QuantumComputer R) (state : List (Basis × R))
    (_hin : ∀ p ∈ state, p.1.add < qc.coeff_.length)
    (k : Nat) (hk : k < qc.coeff_.length) :
    (qc.set_state state).coeff_.getD k 0 = (lastWrite state k).getD 0 := by
  show (state.foldl (fun c p => c.set p.1.add p.2)
      (qc.coeff_.map fun _ => (0 : R))).getD k 0 = _
  rw [set_state_foldl_getD k state _ (by simpa using hk),
    List.map_const', getD_replicate_self]

/-- Witness for C6: two entries write index 1; the later amplitude 9
wins, and `lastWrite` agrees. -/
theorem c6_witness :
    ((mkQuantumComputer ℤ 2).set_state
        [(Basis.mk 1, 5), (Basis.mk 2, 7), (Basis.mk 1, 9)]).coeff_.getD 1 0 = 9 := by
  rw [c6_set_state_last_write_wins (mkQuantumComputer ℤ 2)
    [(Basis.mk 1, 5), (Basis.mk 2, 7), (Basis.mk 1, 9)] (by decide) 1 (by decide)]
  decide

/-! ### Claim C7 -/

theorem toNat_eq_iff (b : Bool) (v : Nat) (hv : v < 2) :
    b.toNat = v ↔ b = v.testBit 0 := by
  interval_cases v <;> cases b <;> simp

theorem gatePass2_length {R : Type} [CommRing R] (op : R)
    (c t i_c i_t j_c j_t : Nat) (coeff : List R) :
    ∀ (l : List Basis) (newc : List R),
      (gatePass2 op c t i_c i_t j_c j_t coeff l newc).length = newc.length
  | [], _ => rfl
  | J :: rest, newc => by
    simp only [gatePass2]
    by_cases h : (J.get_bit c).toNat = j_c ∧ (J.get_bit t).toNat = j_t
    · rw [if_pos h, gatePass2_length op c t i_c i_t j_c j_t coeff rest]
      simp
    · rw [if_neg h, gatePass2_length op c t i_c i_t j_c j_t coeff rest]

/-- Effect of one 2-qubit pass on one output slot, for an arbitrary
basis list. -/
theorem gatePass2_getD {R : Type} [CommRing R] (op : R)
    (c t i_c i_t j_c j_t : Nat) (coeff : List R) (I : Nat) :
    ∀ (l : List Basis) (newc : List R),
      (∀ J ∈ l, ((J.set_bit c i_c).set_bit t i_t).add < newc.length) →
      (gatePass2 op c t i_c i_t j_c j_t coeff l newc).getD I 0 =
        newc.getD I 0 +
          (l.map (fun J =>
            if ((J.get_bit c).toNat = j_c ∧ (J.get_bit t).toNat = j_t) ∧
                ((J.set_bit c i_c).set_bit t i_t).add = I then
              op * coeff.getD J.add 0
            else 0)).sum
  | [], newc, _ => by simp [gatePass2]
  | J :: rest, newc, hw => by
    rw [List.map_cons, List.sum_cons]
    simp only [gatePass2]
    by_cases h1 : (J.get_bit c).toNat = j_c ∧ (J.get_bit t).toNat = j_t
    · rw [if_pos h1]
      have hw2 : ∀ J2 ∈ rest, ((J2.set_bit c i_c).set_bit t i_t).add <
          (newc.set ((J.set_bit c i_c).set_bit t i_t).add
            (newc.getD ((J.set_bit c i_c).set_bit t i_t).add 0 +
              op * coeff.getD J.add 0)).length := by
        intro J2 hJ2
        rw [List.length_set]
        exact hw J2 (List.mem_cons_of_mem _ hJ2)
      rw [gatePass2_getD op c t i_c i_t j_c j_t coeff I rest _ hw2]
      by_cases h2 : ((J.set_bit c i_c).set_bit t i_t).add = I
      · have hIlen : I < newc.length := h2 ▸ hw J (List.mem_cons_self J rest)
        rw [h2, getD_set_self _ _ _ _ hIlen, if_pos ⟨h1, rfl⟩, add_assoc]
      · rw [getD_set_ne _ _ _ _ _ h2, if_neg (fun hcon => h2 hcon.2), zero_add]
    · rw [if_neg h1,
        gatePass2_getD op c t i_c i_t j_c j_t coeff I rest newc
          (fun J2 hJ2 => hw J2 (List.mem_cons_of_mem _ hJ2)),
        if_neg (fun hcon => h1 hcon.1), zero_add]

/-- Bits of a doubly-set basis value at distinct positions `c ≠ t`. -/
theorem testBit_set_bit_set_bit (b : Basis) (c t i_c i_t k : Nat)
    :
    ((b.set_bit c i_c).set_bit t i_t).state_.testBit k =
      if k = t then i_t.testBit 0
      else if k = c then i_c.testBit 0
      else b.state_.testBit k := by
  rw [Basis.testBit_set_bit]
  by_cases hkt : k = t
  · rw [if_pos hkt, if_pos hkt]
  · rw [if_neg hkt, if_neg hkt, Basis.testBit_set_bit]

/-- Over the full basis list, the 2-qubit pass `(i, j)` writes to a slot
`I` exactly from the unique source `J = I` with (control, target) bits
forced to combination `j` — and only when `I`'s own (control, target)
bits are combination `i`. -/
theorem two_guard_iff {I c t i_c i_t j_c j_t r : Nat}
    (hic : i_c < 2) (hit : i_t < 2) (hjc : j_c < 2) (hjt : j_t < 2)
    (hct : c ≠ t)
    (hbc : (I.testBit c).toNat = i_c) (hbt : (I.testBit t).toNat = i_t) :
    ((((Basis.mk r).get_bit c).toNat = j_c ∧
        ((Basis.mk r).get_bit t).toNat = j_t) ∧
      (((Basis.mk r).set_bit c i_c).set_bit t i_t).add = I) ↔
      r = (((Basis.mk I).set_bit c j_c).set_bit t j_t).add := by
  constructor
  · rintro ⟨⟨hgc, hgt⟩, hs⟩
    apply Nat.eq_of_testBit_eq
    intro k
    have hKbits : (((Basis.mk I).set_bit c j_c).set_bit t j_t).add.testBit k =
        if k = t then j_t.testBit 0
        else if k = c then j_c.testBit 0
        else I.testBit k := testBit_set_bit_set_bit (Basis.mk I) c t j_c j_t k
    rw [hKbits]
    by_cases hkt : k = t
    · subst hkt
      rw [if_pos rfl]
      exact (toNat_eq_iff _ _ hjt).mp hgt
    · rw [if_neg hkt]
      by_cases hkc : k = c
      · subst hkc
        rw [if_pos rfl]
        exact (toNat_eq_iff _ _ hjc).mp hgc
      · rw [if_neg hkc]
        have hIk : I.testBit k =
            (((Basis.mk r).set_bit c i_c).set_bit t i_t).state_.testBit k := by
          rw [show (((Basis.mk r).set_bit c i_c).set_bit t i_t).state_ = I from hs]
        rw [hIk, testBit_set_bit_set_bit (Basis.mk r) c t i_c i_t k,
          if_neg hkt, if_neg hkc]
  · intro h
    subst h
    have he : Basis.mk (((Basis.mk I).set_bit c j_c).set_bit t j_t).add =
        ((Basis.mk I).set_bit c j_c).set_bit t j_t := Basis.mk_state _
    refine ⟨⟨?_, ?_⟩, ?_⟩
    · rw [toNat_eq_iff _ _ hjc, Basis.get_bit, he,
        testBit_set_bit_set_bit (Basis.mk I) c t j_c j_t c,
        if_neg hct, if_pos rfl]
    · rw [toNat_eq_iff _ _ hjt, Basis.get_bit, he,
        testBit_set_bit_set_bit (Basis.mk I) c t j_c j_t t, if_pos rfl]
    · apply Nat.eq_of_testBit_eq
      intro k
      rw [show ((((Basis.mk (((Basis.mk I).set_bit c j_c).set_bit t j_t).add).set_bit
          c i_c).set_bit t i_t)).add.testBit k =
          (((Basis.mk (((Basis.mk I).set_bit c j_c).set_bit t j_t).add).set_bit
            c i_c).set_bit t i_t).state_.testBit k from rfl,
        testBit_set_bit_set_bit _ c t i_c i_t k]
      by_cases hkt : k = t
      · subst hkt
        rw [if_pos rfl]
        exact ((toNat_eq_iff _ _ hit).mp hbt).symm
      · rw [if_neg hkt]
        by_cases hkc : k = c
        · subst hkc
          rw [if_pos rfl]
          exact ((toNat_eq_iff _ _ hic).mp hbc).symm
        · rw [if_neg hkc, he,
            testBit_set_bit_set_bit (Basis.mk I) c t j_c j_t k,
            if_neg hkt, if_neg hkc]

theorem set_bit_set_bit_lt_two_pow {b : Basis} {N : Nat}
    (hb : b.state_ < 2 ^ N) {c t : Nat} (hc : c < N) (ht : t < N)
    (i_c i_t : Nat) : ((b.set_bit c i_c).set_bit t i_t).state_ < 2 ^ N :=
  Basis.set_bit_lt_two_pow (Basis.set_bit_lt_two_pow hb hc i_c) ht i_t

/-- Closed form of one 2-qubit pass on an in-range slot `I`, over the
full basis list. -/
theorem gatePass2_closed {R : Type} [CommRing R] (op : R)
    (N c t i_c i_t j_c j_t : Nat) (hc : c < N) (ht : t < N) (hct : c ≠ t)
    (hic : i_c < 2) (hit : i_t < 2) (hjc : j_c < 2) (hjt : j_t < 2)
    (coeff newc : List R) (hlen : newc.length = 2 ^ N) (I : Nat)
    (hI : I < 2 ^ N) :
    (gatePass2 op c t i_c i_t j_c j_t coeff (basisList (2 ^ N)) newc).getD I 0 =
      newc.getD I 0 +
        (if (I.testBit c).toNat = i_c ∧ (I.testBit t).toNat = i_t then
          op * coeff.getD (((Basis.mk I).set_bit c j_c).set_bit t j_t).add 0
        else 0) := by
  have hw : ∀ J ∈ basisList (2 ^ N),
      ((J.set_bit c i_c).set_bit t i_t).add < newc.length := by
    intro J hJ
    rw [hlen]
    rcases List.mem_map.mp hJ with ⟨r, hr, hmk⟩
    subst hmk
    exact set_bit_set_bit_lt_two_pow (List.mem_range.mp hr) hc ht i_c i_t
  rw [gatePass2_getD op c t i_c i_t j_c j_t coeff I _ newc hw]
  congr 1
  rw [basisList, List.map_map]
  by_cases hbit : (I.testBit c).toNat = i_c ∧ (I.testBit t).toNat = i_t
  · rw [if_pos hbit]
    have hfun : ∀ r,
        ((fun J => if ((Basis.get_bit J c).toNat = j_c ∧
              (Basis.get_bit J t).toNat = j_t) ∧
              ((J.set_bit c i_c).set_bit t i_t).add = I then
            op * coeff.getD J.add 0 else 0) ∘ Basis.mk) r =
          (fun r => if r = (((Basis.mk I).set_bit c j_c).set_bit t j_t).add then
            op * coeff.getD r 0 else 0) r := by
      intro r
      simp only [Function.comp]
      rw [if_congr (two_guard_iff hic hit hjc hjt hct hbit.1 hbit.2) rfl rfl]
      by_cases hr : r = (((Basis.mk I).set_bit c j_c).set_bit t j_t).add
      · rw [if_pos hr, if_pos hr]
        rfl
      · rw [if_neg hr, if_neg hr]
    rw [funext hfun, sum_range_ite (fun r => op * coeff.getD r 0)]
    have hK : (((Basis.mk I).set_bit c j_c).set_bit t j_t).add < 2 ^ N :=
      set_bit_set_bit_lt_two_pow hI hc ht j_c j_t
    rw [if_pos hK]
  · rw [if_neg hbit]
    have hfun : ∀ r,
        ((fun J => if ((Basis.get_bit J c).toNat = j_c ∧
              (Basis.get_bit J t).toNat = j_t) ∧
              ((J.set_bit c i_c).set_bit t i_t).add = I then
            op * coeff.getD J.add 0 else 0) ∘ Basis.mk) r =
          (fun _ => (0 : R)) r := by
      intro r
      simp only [Function.comp]
      rw [if_neg]
      rintro ⟨_, hs⟩
      apply hbit
      have h1 : ((Basis.mk r).set_bit c i_c).set_bit t i_t = Basis.mk I :=
        Basis.eq_of_state_eq hs
      constructor
      · rw [toNat_eq_iff _ _ hic, show I.testBit c = (Basis.mk I).state_.testBit c from rfl,
          ← h1, testBit_set_bit_set_bit (Basis.mk r) c t i_c i_t c,
          if_neg hct, if_pos rfl]
      · rw [toNat_eq_iff _ _ hit, show I.testBit t = (Basis.mk I).state_.testBit t from rfl,
          ← h1, testBit_set_bit_set_bit (Basis.mk r) c t i_c i_t t,
          if_pos rfl]
    rw [funext hfun, sum_range_zero_fun]

theorem tqb_lt_two {k : Nat} (hk : k < 4) : (tqb k).1 < 2 ∧ (tqb k).2 < 2 := by
  interval_cases k <;> decide

/-- Closed form of a sequence of 2-qubit passes (the nested loop as a
fold over the (i, j) pair list) on an in-range slot `I`. -/
theorem passes2_foldl_getD {R : Type} [CommRing R] (op : Nat → Nat → R)
    (N c t : Nat) (hc : c < N) (ht : t < N) (hct : c ≠ t) (coeff : List R)
    (I : Nat) (hI : I < 2 ^ N) :
    ∀ (ps : List (Nat × Nat)) (newc : List R), newc.length = 2 ^ N →
      (∀ p ∈ ps, p.1 < 4 ∧ p.2 < 4) →
      (ps.foldl
          (fun nc p =>
            gatePass2 (op p.1 p.2) c t (tqb p.1).1 (tqb p.1).2
              (tqb p.2).1 (tqb p.2).2 coeff (basisList (2 ^ N)) nc)
          newc).getD I 0 =
        newc.getD I 0 +
          (ps.map (fun p =>
            if (I.testBit c).toNat = (tqb p.1).1 ∧
                (I.testBit t).toNat = (tqb p.1).2 then
              op p.1 p.2 *
                coeff.getD
                  (((Basis.mk I).set_bit c (tqb p.2).1).set_bit t
                    (tqb p.2).2).add 0
            else 0)).sum
  | [], newc, _, _ => by simp
  | p :: ps, newc, hlen, hb => by
    rw [List.foldl_cons, List.map_cons, List.sum_cons]
    have hplen : (gatePass2 (op p.1 p.2) c t (tqb p.1).1 (tqb p.1).2
        (tqb p.2).1 (tqb p.2).2 coeff (basisList (2 ^ N)) newc).length
        = 2 ^ N := by
      rw [gatePass2_length]
      exact hlen
    rw [passes2_foldl_getD op N c t hc ht hct coeff I hI ps _ hplen
        (fun q hq => hb q (List.mem_cons_of_mem _ hq)),
      gatePass2_closed (op p.1 p.2) N c t (tqb p.1).1 (tqb p.1).2
        (tqb p.2).1 (tqb p.2).2 hc ht hct
        (tqb_lt_two (hb p (List.mem_cons_self p ps)).1).1
        (tqb_lt_two (hb p (List.mem_cons_self p ps)).1).2
        (tqb_lt_two (hb p (List.mem_cons_self p ps)).2).1
        (tqb_lt_two (hb p (List.mem_cons_self p ps)).2).2
        coeff newc hlen I hI, add_assoc]

/-- C7: after `apply_2qubit_gate` with 4x4 matrix `op`, control `c` and
target `t` (distinct, both `< N`), starting from the all-zero scratch
buffer, every basis index `I < 2^N` of `new_coeff_` holds the sum over
the four combinations `j` of `op[i][j] * coeff_[J_j]`, where `i` is the
combination index of `I`'s own (control, target) bits
(`2 * bit_c + bit_t`) and `J_j` is `I` with its (control, target) bits
overwritten by combination `j` — and nothing else is accumulated. -/
theorem c7_apply_2qubit_gate_entry {R : Type} [CommRing R] (N c t : Nat)
    (hc : c < N) (ht : t < N) (hct : c ≠ t) (op : Nat → Nat → R)
    (coeff : List R) (I : Nat) (hI : I < 2 ^ N) :
    ((QuantumComputer.mk N (2 ^ N) (basisList (2 ^ N)) coeff
        (List.replicate (2 ^ N) (0 : R))).apply_2qubit_gate
          (QuantumGate.mk 2 t c op)).new_coeff_.getD I 0 =
      op (2 * (I.testBit c).toNat + (I.testBit t).toNat) 0 *
          coeff.getD (((Basis.mk I).set_bit c 0).set_bit t 0).add 0 +
        op (2 * (I.testBit c).toNat + (I.testBit t).toNat) 1 *
          coeff.getD (((Basis.mk I).set_bit c 0).set_bit t 1).add 0 +
        op (2 * (I.testBit c).toNat + (I.testBit t).toNat) 2 *
          coeff.getD (((Basis.mk I).set_bit c 1).set_bit t 0).add 0 +
        op (2 * (I.testBit c).toNat + (I.testBit t).toNat) 3 *
          coeff.getD (((Basis.mk I).set_bit c 1).set_bit t 1).add 0 := by
  show (ijPairs.foldl
      (fun nc p =>
        gatePass2 (op p.1 p.2) c t (tqb p.1).1 (tqb p.1).2
          (tqb p.2).1 (tqb p.2).2 coeff (basisList (2 ^ N)) nc)
      (List.replicate (2 ^ N) (0 : R))).getD I 0 = _
  rw [passes2_foldl_getD op N c t hc ht hct coeff I hI ijPairs _
      (by simp) (by decide), getD_replicate_self]
  have ht0 : tqb 0 = (0, 0) := rfl
  have ht1 : tqb 1 = (0, 1) := rfl
  have ht2 : tqb 2 = (1, 0) := rfl
  have ht3 : tqb 3 = (1, 1) := rfl
  simp only [ijPairs, List.map_cons, List.map_nil, List.sum_cons,
    List.sum_nil, ht0, ht1, ht2, ht3]
  cases hbc : I.testBit c <;> cases hbt : I.testBit t <;>
    simp [hbc, hbt] <;> ring

/-- Witness for C7: N = 2, control qubit 1, target qubit 0, matrix
entries `op i j = 4*i + j`, coefficients [3,1,4,1], slot I = 2; the
entry is 8*3 + 9*1 + 10*4 + 11*1 = 84. -/
theorem c7_witness :
    ((QuantumComputer.mk 2 (2 ^ 2) (basisList (2 ^ 2)) [3, 1, 4, 1]
        (List.replicate (2 ^ 2) (0 : ℤ))).apply_2qubit_gate
          (QuantumGate.mk 2 0 1
            (fun i j => 4 * (i : ℤ) + (j : ℤ)))).new_coeff_.getD 2 0 = 84 := by
  rw [c7_apply_2qubit_gate_entry 2 1 0 (by decide) (by decide) (by decide)
    (fun i j => 4 * (i : ℤ) + (j : ℤ)) [3, 1, 4, 1] 2 (by decide)]
  decide

/-! ### Claim C8 -/

/-- C8 counterexample: for `Basis(1)` (bit 0 set) rendered over 2
qubits, the code produces `"|10>"` — the character immediately after
`'|'` is bit 0 (`'1'`), not bit `nqubit - 1` (`'0'`): the loop runs
`i = 0` upward, so the ket is least-significant-qubit first. -/
theorem c8_counterexample :
    Basis.str (Basis.mk 1) 2 = "|10>" ∧
      ¬ ((Basis.str (Basis.mk 1) 2).data.getD 1 ' ' =
        (if (Basis.mk 1).get_bit (2 - 1) then '1' else '0')) := by
  decide

theorem strFold_data (b : Basis) :
    ∀ (l : List Nat) (s : String),
      (l.foldl (fun s i => s ++ (if b.get_bit i then "1" else "0")) s).data =
        s.data ++ l.map (fun i => if b.get_bit i then '1' else '0')
  | [], s => by simp
  | i :: rest, s => by
    rw [List.foldl_cons, strFold_data b rest, List.map_cons]
    by_cases h : b.get_bit i
    · simp [h, String.data_append]
    · simp [h, String.data_append]

/-- C8 amended: `str(nqubit)` renders the ket least-significant qubit
first: the character immediately after `'|'` is bit 0 and the character
immediately before `'>'` is bit `nqubit - 1`. -/
theorem c8_str_renders_lsb_first (b : Basis) (n : Nat) :
    (b.str n).data =
      '|' :: (((List.range n).map fun i => if b.get_bit i then '1' else '0')
        ++ ['>']) := by
  show ((((List.range n).foldl
      (fun s i => s ++ (if b.get_bit i then "1" else "0")) "|")) ++ ">").data = _
  rw [String.data_append, strFold_data b (List.range n) "|"]
  rfl

/-! ### Claim C9 -/

theorem foldl_append_filter {α β : Type} (p2 : α → Bool) (f : α → β) :
    ∀ (l : List α) (acc : List β),
      l.foldl (fun ts x => if p2 x then ts ++ [f x] else ts) acc =
        acc ++ (l.filter p2).map f
  | [], acc => by simp
  | x :: rest, acc => by
    rw [List.foldl_cons]
    by_cases h : p2 x
    · rw [if_pos h, foldl_append_filter p2 f rest,
        List.filter_cons_of_pos h, List.map_cons, List.append_assoc]
      rfl
    · rw [if_neg h, foldl_append_filter p2 f rest,
        List.filter_cons_of_neg (by simp [h])]

/-- C9: `QuantumComputer::str()` returns exactly one rendered term for
each basis index whose amplitude passes the magnitude-threshold test, in
ascending basis-index order, and omits every other term; it reads but
never mutates the register state (it is a function of the state). -/
theorem c9_str_exactly_kept_terms_in_order {R : Type} [CommRing R]
    (qc : QuantumComputer R) (keep : R → Bool) :
    qc.str keep =
      ((List.range qc.nbasis_).filter (fun i => keep (qc.coeff_.getD i 0))).map
        (fun i => (qc.coeff_.getD i 0,
          (qc.basis_.getD i (Basis.mk 0)).str qc.nqubit_)) := by
  show (List.range qc.nbasis_).foldl _ [] = _
  rw [foldl_append_filter (fun i => keep (qc.coeff_.getD i 0))
    (fun i => (qc.coeff_.getD i 0,
      (qc.basis_.getD i (Basis.mk 0)).str qc.nqubit_))
    (List.range qc.nbasis_) []]
  rfl

/-! ### Claim C10 -/

/-- C10: for a gate whose declared qubit count is not 1 (in particular
any 2-qubit gate), `apply_gate` never calls `apply_2qubit_gate` (its
dispatch has no branch for it); it copies the scratch buffer — still
all-zero, by the standing invariant — into `coeff_` and re-zeroes the
scratch, so the register state is silently replaced by the all-zero
vector. -/
theorem c10_apply_gate_non1_zeroes_state {R : Type} [CommRing R]
    (qc : QuantumComputer R) (qg : QuantumGate R) (h : qg.nqubits ≠ 1)
    (hz : qc.new_coeff_ = List.replicate (2 ^ qc.nqubit_) 0) :
    (qc.apply_gate qg).coeff_ = List.replicate (2 ^ qc.nqubit_) (0 : R) ∧
      (qc.apply_gate qg).new_coeff_ = List.replicate (2 ^ qc.nqubit_) (0 : R) := by
  have h1 : (if qg.nqubits = 1 then qc.apply_1qubit_gate qg else qc) = qc :=
    if_neg h
  constructor
  · show (if qg.nqubits = 1 then qc.apply_1qubit_gate qg else qc).new_coeff_ = _
    rw [h1, hz]
  · show ((if qg.nqubits = 1 then qc.apply_1qubit_gate qg else qc).new_coeff_.map
      fun _ => (0 : R)) = _
    rw [h1, hz, List.map_const']
    simp

/-- Witness for C10: a freshly constructed 1-qubit register (state
`[1, 0]`) hit with a gate declaring `nqubits = 2` ends with `coeff_`
all-zero. -/
theorem c10_witness :
    ((mkQuantumComputer ℤ 1).apply_gate
        (QuantumGate.mk 2 0 1 (fun _ _ => 3))).coeff_ =
      List.replicate (2 ^ (mkQuantumComputer ℤ 1).nqubit_) (0 : ℤ) ∧
    ((mkQuantumComputer ℤ 1).apply_gate
        (QuantumGate.mk 2 0 1 (fun _ _ => 3))).new_coeff_ =
      List.replicate (2 ^ (mkQuantumComputer ℤ 1).nqubit_) (0 : ℤ) :=
  c10_apply_gate_non1_zeroes_state (mkQuantumComputer ℤ 1)
    (QuantumGate.mk 2 0 1 (fun _ _ => 3)) (by decide) (by decide)

end Qforte
